import Mathlib

/-!
Verification of the audio-to-score transcription pipeline of the
ai-music-transcription repository, as implemented in
src/transcriber/brass_arranger.py (the generic onset-detection variant) and
src/ai_music_transcription/brass_arranger.py (the fixed-structure variant).

The Python code is shallowly embedded: note-event tuples (onset_time, note_obj)
become the TNote structure, onset times and quarter lengths are modelled as
rationals (the claims under consideration do not hinge on floating-point
rounding of these quantities), frequencies and the hz-to-midi conversion are
modelled over the reals, and Python function bodies are translated line by
line into Lean functions.
-/

/-- A detected note event, mirroring the (onset_time, music21-note) tuples the
transcriber builds in AudioTranscriber._extract_notes_from_audio.  A music21
Note object constructed as note.Note(p) carries the constructor default
quarterLength of 1.0 (a quarter note); the transcriber never sets a duration
before _estimate_note_durations runs, so quarterLength starts at 1. -/
structure TNote where
  onset : ℚ
  midi : ℕ
  quarterLength : ℚ := 1
  deriving DecidableEq, Repr

/-- The two voices of the transcription (treble and bass lines). -/
inductive Voice where
  | treble
  | bass
  deriving DecidableEq, Repr

/-- Ranges.MIDDLE_C = 60, the dividing line between treble and bass. -/
def MIDDLE_C : ℤ := 60

/-- Ranges.TRUMPET_MIN. -/
def TRUMPET_MIN : ℤ := 55

/-- Ranges.TRUMPET_MAX. -/
def TRUMPET_MAX : ℤ := 84

/-- Ranges.TROMBONE_MIN. -/
def TROMBONE_MIN : ℤ := 40

/-- Ranges.TROMBONE_MAX. -/
def TROMBONE_MAX : ℤ := 77

/-- Voice classification as performed in
AudioTranscriber._extract_notes_from_audio (line 158): a note is treble when
note_obj.pitch.ps is at least Ranges.MIDDLE_C, else bass.  For semitone-valued
pitches, pitch.ps coincides with the integer MIDI number. -/
def classify_voice (ps : ℤ) : Voice :=
  if MIDDLE_C ≤ ps then Voice.treble else Voice.bass

/-- Voice classification as performed in
BrassArranger._split_single_part_by_pitch (line 411): the same split at
Ranges.MIDDLE_C. -/
def split_voice (ps : ℤ) : Voice :=
  if MIDDLE_C ≤ ps then Voice.treble else Voice.bass

/-- The major_keys dictionary of AudioTranscriber._detect_key_signature, in
its Python insertion order: pitch class to circle-of-fifths value. -/
def major_keys : List (ℕ × ℤ) :=
  [(0, 0), (7, 1), (2, 2), (9, 3), (4, 4), (11, 5),
   (6, 6), (1, 7), (5, -1), (10, -2), (3, -3), (8, -4)]

/-- Keys of the pc_counts dictionary in Python insertion order: the first
occurrence of each pitch class, in order of appearance. -/
def keys_in_order : List ℕ → List ℕ
  | [] => []
  | x :: xs => x :: keys_in_order (xs.filter (fun y => y ≠ x))
termination_by l => l.length
decreasing_by
  simp only [List.length_cons]
  exact Nat.lt_succ_of_le (List.length_filter_le _ _)

/-- Python max(keys, key=f): the first element of the list attaining the
maximal value of f (later elements replace the current best only when
strictly greater). -/
def argmax_first (f : ℕ → ℕ) (l : List ℕ) : Option ℕ :=
  l.foldl (fun acc k =>
    match acc with
    | none => some k
    | some b => if f b < f k then some k else acc) none

/-- AudioTranscriber._detect_key_signature (lines 236-274): empty input
returns the zero-accidental key; otherwise the most frequent pitch class
(midi modulo 12, first-encountered wins ties) is looked up in major_keys,
falling back to 0.  The result is the circle-of-fifths integer wrapped by
key.KeySignature. -/
def detect_key_signature (notes : List TNote) : ℤ :=
  if notes.isEmpty then 0
  else
    match argmax_first (fun pc => (notes.map (fun n => n.midi % 12)).count pc)
        (keys_in_order (notes.map (fun n => n.midi % 12))) with
    | some pc =>
      match major_keys.lookup pc with
      | some v => v
      | none => 0
    | none => 0

/-- The duration quantization of AudioTranscriber._estimate_note_durations
(lines 294-301): a gap in seconds maps to a quarterLength of 0.5, 1, 2 or 4
by fixed boundary thresholds 0.375, 0.75 and 1.5. -/
def quantize_duration (d : ℚ) : ℚ :=
  if d ≤ 3/8 then 1/2
  else if d ≤ 3/4 then 1
  else if d ≤ 3/2 then 2
  else 4

/-- The fixed default gap, in seconds, given to the last note of a voice
(line 291 of _estimate_note_durations). -/
def default_last_gap : ℚ := 1/2

/-- The per-note duration assignment loop of _estimate_note_durations over
the already-sorted list: each non-final note receives the quantized gap to
its successor, the final note receives the quantized default gap. -/
def assignDurations : List TNote → List TNote
  | [] => []
  | [e] => [{ e with quarterLength := quantize_duration default_last_gap }]
  | e :: e2 :: rest =>
      { e with quarterLength := quantize_duration (e2.onset - e.onset) } ::
        assignDurations (e2 :: rest)

instance : DecidableRel (fun a b : TNote => a.onset ≤ b.onset) :=
  fun a b => inferInstanceAs (Decidable (a.onset ≤ b.onset))

/-- AudioTranscriber._estimate_note_durations (lines 276-305): lists of at
most one note are returned unchanged; otherwise the notes are sorted by onset
time and each receives a quantized duration. -/
def estimate_note_durations (notes : List TNote) : List TNote :=
  if notes.length ≤ 1 then notes
  else assignDurations (notes.insertionSort (fun a b => a.onset ≤ b.onset))

/-- The first while loop of BrassArranger._transpose_note_to_range: raise the
pitch by octaves while it is below min_pitch. -/
def transposeUpToMin (ps min_pitch : ℤ) : ℤ :=
  if ps < min_pitch then transposeUpToMin (ps + 12) min_pitch else ps
termination_by (min_pitch - ps).toNat
decreasing_by omega

/-- The second while loop of BrassArranger._transpose_note_to_range: lower
the pitch by octaves while it is above max_pitch. -/
def transposeDownToMax (ps max_pitch : ℤ) : ℤ :=
  if max_pitch < ps then transposeDownToMax (ps - 12) max_pitch else ps
termination_by (ps - max_pitch).toNat
decreasing_by omega

/-- BrassArranger._transpose_note_to_range (lines 422-431): both loops in
sequence.  Termination of the Python while loops corresponds to this
definition being accepted as total by well-founded recursion. -/
def transpose_note_to_range (ps min_pitch max_pitch : ℤ) : ℤ :=
  transposeDownToMax (transposeUpToMin ps min_pitch) max_pitch

/-- An element placed inside a measure: a note or a rest, each carrying its
quarterLength. -/
inductive MElem where
  | note (ql : ℚ)
  | rest (ql : ℚ)
  deriving DecidableEq, Repr

/-- The quarterLength of a measure element. -/
def MElem.ql : MElem → ℚ
  | MElem.note q => q
  | MElem.rest q => q

/-- A measure, recorded as the list of (beat offset, element) insertions made
into the music21 Measure, in insertion order.  Time signatures, clefs and key
signatures are not notesAndRests and are not modelled. -/
abbrev Measure := List (ℚ × MElem)

/-- Python int() applied to a rational: truncation toward zero. -/
def pyTrunc (x : ℚ) : ℤ :=
  if x < 0 then ⌈x⌉ else ⌊x⌋

/-- Python float modulo for a positive divisor: the representative of x mod y
in the half-open interval from 0 to y. -/
def pyMod (x y : ℚ) : ℚ :=
  x - y * ⌊x / y⌋

/-- max(onset_time for onset_time, _ in notes) over a nonempty list. -/
def maxOnset : List TNote → ℚ
  | [] => 0
  | n :: ns => ns.foldl (fun m k => max m k.onset) n.onset

/-- AudioTranscriber._create_dynamic_part (lines 169-233), restricted to its
notesAndRests content.  An empty note list yields one measure holding a
whole-measure rest.  Otherwise the audio duration (given, or max onset plus
one second) determines the number of 4/4 measures at the assumed 120 BPM
(seconds_per_beat = 0.5, seconds_per_measure = 2.0), the measures start
empty, and each note is inserted into measure
min(int(onset / seconds_per_measure), num_measures - 1) at beat offset
(onset mod seconds_per_measure) / seconds_per_beat.  No rests are inserted
on this path. -/
def create_dynamic_part (notes : List TNote) (audio_duration : Option ℚ) :
    List Measure :=
  if notes.isEmpty then [[(0, MElem.rest 4)]]
  else
    let dur := audio_duration.getD (maxOnset notes + 1)
    let seconds_per_beat : ℚ := 60 / 120
    let seconds_per_measure : ℚ := 4 * seconds_per_beat
    let num : ℤ := max 1 ⌈dur / seconds_per_measure⌉
    let init : List Measure := List.replicate num.toNat []
    notes.foldl (fun ms n =>
      let idx := (min (pyTrunc (n.onset / seconds_per_measure)) (num - 1)).toNat
      let beat_offset := pyMod n.onset seconds_per_measure / seconds_per_beat
      ms.set idx (ms.getD idx [] ++ [(beat_offset, MElem.note n.quarterLength)]))
      init

/-- The first note whose onset is within 0.1 of the given beat time, as
searched for by the inner loops of
AudioTranscriber._create_structured_part (ai_music_transcription variant). -/
def find_note_at (notes : List TNote) (beat_time : ℚ) : Option TNote :=
  notes.find? (fun n => |n.onset - beat_time| < 1/10)

/-- One measure of AudioTranscriber._create_structured_part (lines 399-463 of
the ai_music_transcription variant).  Measures 1 and 2 place, at each of the
four beats, the first note whose onset is within 0.1 of that absolute beat
time, or a quarter rest.  Measure 3 places a note near absolute beat 8 or a
quarter rest at beat 0, then a quarter rest at beat 1 and a half rest at
beat 2. -/
def structuredMeasure (notes : List TNote) (measure_num : ℕ) : Measure :=
  if measure_num ≤ 2 then
    (List.range 4).map (fun beat =>
      let beat_time : ℚ := ((measure_num - 1) * 4 + beat : ℕ)
      match find_note_at notes beat_time with
      | some n => ((beat : ℚ), MElem.note n.quarterLength)
      | none => ((beat : ℚ), MElem.rest 1))
  else
    (match find_note_at notes 8 with
     | some n => ((0 : ℚ), MElem.note n.quarterLength)
     | none => ((0 : ℚ), MElem.rest 1)) ::
    [(1, MElem.rest 1), (2, MElem.rest 2)]

/-- AudioTranscriber._create_structured_part: exactly three measures. -/
def create_structured_part (notes : List TNote) : List Measure :=
  [structuredMeasure notes 1, structuredMeasure notes 2, structuredMeasure notes 3]

/-- Beat slot b of a measure is accounted for when some inserted element
starts at or before b and extends past it. -/
def measureCoversBeat (m : Measure) (b : ℚ) : Prop :=
  ∃ p ∈ m, p.1 ≤ b ∧ b < p.1 + p.2.ql

instance (m : Measure) (b : ℚ) : Decidable (measureCoversBeat m b) :=
  inferInstanceAs (Decidable (∃ p ∈ m, p.1 ≤ b ∧ b < p.1 + p.2.ql))

/-- Every beat slot (beats 0 to 3 of a 4/4 measure) of every measure is
accounted for by a note or an explicit rest. -/
def allBeatsCovered (ms : List Measure) : Prop :=
  ∀ m ∈ ms, ∀ b ∈ ([0, 1, 2, 3] : List ℚ), measureCoversBeat m b

instance (ms : List Measure) : Decidable (allBeatsCovered ms) :=
  inferInstanceAs (Decidable (∀ m ∈ ms, ∀ b ∈ ([0, 1, 2, 3] : List ℚ),
    measureCoversBeat m b))

/-- Modelled from the spec: AudioTranscriber._detect_onsets (lines 86-96)
delegates to librosa.onset.onset_detect, whose body is external library code
not present in this repository.  Following section 4.1 of the specification,
the detector computes a time-varying energy measure over frames, takes the
positive spectral change between consecutive frames, and picks local maxima
above a fixed threshold with a minimum spacing between accepted onsets,
converting frame indices to times.  Energy of one analysis frame: -/
def frameEnergy (audio : List ℚ) (start len : ℕ) : ℚ :=
  ((audio.drop start).take len).foldl (fun s x => s + x * x) 0

/-- Modelled from the spec: the per-frame energy sequence, hop_length samples
between frame starts. -/
def frameEnergies (audio : List ℚ) (hop flen : ℕ) : List ℚ :=
  (List.range (audio.length / max hop 1)).map (fun i => frameEnergy audio (i * hop) flen)

/-- Modelled from the spec: the novelty curve, the positive part of the
first difference of the energy sequence. -/
def noveltyCurve (es : List ℚ) : List ℚ :=
  (es.zip (es.drop 1)).map (fun p => max (p.2 - p.1) 0)

/-- Modelled from the spec: pick indices of the novelty curve that exceed the
threshold, are at least as large as their immediate neighbours, and respect a
minimum spacing to the previously accepted index. -/
def pickPeaks (nov : List ℚ) (threshold : ℚ) (minSpacing : ℕ) : List ℕ :=
  let accept := fun (st : Option ℕ × List ℕ) (i : ℕ) =>
    let v := nov.getD i 0
    let prev := if i = 0 then 0 else nov.getD (i - 1) 0
    let next := nov.getD (i + 1) 0
    let spaced := match st.1 with
      | none => true
      | some last => decide (last + minSpacing ≤ i)
    if threshold < v ∧ prev ≤ v ∧ next ≤ v ∧ spaced = true then
      (some i, st.2 ++ [i])
    else st
  ((List.range nov.length).foldl accept (none, [])).2

/-- Modelled from the spec: the onset detector, a pure function of the audio
buffer and the fixed configuration (hop_length 512, frame_length 2048,
onset_threshold 0.1), returning onset timestamps in seconds. -/
def detect_onsets (audio : List ℚ) (sr : ℕ) : List ℚ :=
  (pickPeaks (noveltyCurve (frameEnergies audio 512 2048)) (1/10) 1).map
    (fun i => (i * 512 : ℚ) / sr)

/-- librosa.hz_to_midi: 12 * (log2(freq) - log2(440)) + 69, written with the
base-2 logarithm of the frequency ratio. -/
noncomputable def hz_to_midi (f : ℝ) : ℝ :=
  69 + 12 * Real.logb 2 (f / 440)

/-- Python round() on a float with no digits argument: round to the nearest
integer, ties to the even integer (the rounding used by int(round(midi_note))
in AudioTranscriber._frequency_to_note, since exact ties pick the even of the
two neighbouring integers). -/
noncomputable def pyRound (x : ℝ) : ℤ :=
  if x - ⌊x⌋ < 1/2 then ⌊x⌋
  else if 1/2 < x - ⌊x⌋ then ⌊x⌋ + 1
  else if Even ⌊x⌋ then ⌊x⌋ else ⌊x⌋ + 1

/-- AudioTranscriber._frequency_to_note of the transcriber variant (lines
64-84): frequencies at or below 20 Hz or above 4000 Hz are rejected, the
frequency is converted to a MIDI number and rounded to the nearest semitone,
and rounded values outside the piano range 21..108 are rejected; otherwise
the semitone is returned (wrapped by the caller into a music21 Note).  The
magnitude of the spectral peak is not an input of this function. -/
noncomputable def frequency_to_note (f : ℝ) : Option ℤ :=
  if f ≤ 20 ∨ 4000 < f then none
  else
    let m := pyRound (hz_to_midi f)
    if m < 21 ∨ 108 < m then none else some m

theorem pyRound_ge (x : ℝ) : ⌊x⌋ ≤ pyRound x := by
  unfold pyRound
  split_ifs <;> omega

theorem pyRound_le (x : ℝ) : pyRound x ≤ ⌊x⌋ + 1 := by
  unfold pyRound
  split_ifs <;> omega

theorem pyRound_intCast (n : ℤ) : pyRound (n : ℝ) = n := by
  unfold pyRound
  rw [Int.floor_intCast]
  norm_num

theorem pyRound_mono {x y : ℝ} (hxy : x ≤ y) : pyRound x ≤ pyRound y := by
  have hf : ⌊x⌋ ≤ ⌊y⌋ := Int.floor_le_floor hxy
  rcases lt_or_eq_of_le hf with hlt | heq
  · calc pyRound x ≤ ⌊x⌋ + 1 := pyRound_le x
      _ ≤ ⌊y⌋ := by omega
      _ ≤ pyRound y := pyRound_ge y
  · have hfr : x - (⌊x⌋ : ℝ) ≤ y - (⌊x⌋ : ℝ) := by linarith
    unfold pyRound
    rw [← heq]
    split_ifs <;> first | omega | linarith

theorem keys_in_order_const {p : ℕ} (l : List ℕ) (hne : l ≠ [])
    (hall : ∀ x ∈ l, x = p) : keys_in_order l = [p] := by
  cases l with
  | nil => exact absurd rfl hne
  | cons x xs =>
    have hx : x = p := hall x (by simp)
    have hfilter : xs.filter (fun y => y ≠ x) = [] := by
      simp only [List.filter_eq_nil_iff, decide_eq_true_eq, ne_eq, not_not]
      intro a ha
      rw [hall a (List.mem_cons_of_mem x ha), hx]
    rw [keys_in_order, hfilter, keys_in_order, hx]

theorem major_keys_lookup_isSome {p : ℕ} (hp : p < 12) :
    (major_keys.lookup p).isSome := by
  have h : ∀ q, q < 12 → ((major_keys.lookup q).isSome = true) := by decide
  exact h p hp

/-- C1: the key signature estimator returns the zero-accidental key (0) on an
empty note multiset; on a nonempty multiset in which every note has pitch
class p it returns the circle-of-fifths value stored for p in the fixed
12-entry major-key table; and it always returns a result (it is a total
function into the integers). -/
theorem C1_key_signature_estimator (notes : List TNote) (p : ℕ)
    (hne : notes ≠ []) (hall : ∀ n ∈ notes, n.midi % 12 = p) :
    detect_key_signature [] = 0 ∧
    (major_keys.lookup p).isSome ∧
    detect_key_signature notes = (major_keys.lookup p).getD 0 := by
  obtain ⟨n0, rest, rfl⟩ : ∃ n0 rest, notes = n0 :: rest := by
    cases notes with
    | nil => exact absurd rfl hne
    | cons a l => exact ⟨a, l, rfl⟩
  have hp : p < 12 := by
    have h0 := hall n0 (by simp)
    omega
  refine ⟨rfl, major_keys_lookup_isSome hp, ?_⟩
  have hpcs : ∀ x ∈ (n0 :: rest).map (fun n => n.midi % 12), x = p := by
    intro x hx
    obtain ⟨n, hn, rfl⟩ := List.mem_map.mp hx
    exact hall n hn
  have hk : keys_in_order ((n0 :: rest).map (fun n => n.midi % 12)) = [p] :=
    keys_in_order_const _ (by simp) hpcs
  unfold detect_key_signature
  rw [if_neg (by simp), hk]
  show (match major_keys.lookup p with
        | some v => v
        | none => 0) = (major_keys.lookup p).getD 0
  obtain ⟨v, hv⟩ := Option.isSome_iff_exists.mp (major_keys_lookup_isSome hp)
  rw [hv]
  rfl

/-- Witness for C1: a single note of MIDI pitch 64 has pitch class 4, whose
table entry is 4 sharps (E major). -/
theorem C1_witness :
    detect_key_signature [] = 0 ∧
    (major_keys.lookup 4).isSome ∧
    detect_key_signature [⟨0, 64, 1⟩] = (major_keys.lookup 4).getD 0 :=
  C1_key_signature_estimator [⟨0, 64, 1⟩] 4 (by simp) (by decide)

/-- C4: voice classification is a pure function of the discrete pitch alone;
pitch at least 60 classifies as treble, pitch below 60 as bass, two equal
pitches always classify identically, and the audio-extraction split and the
single-part split agree. -/
theorem C4_voice_classification (p1 p2 : ℤ) (hp : p1 = p2) :
    (∀ p : ℤ, (classify_voice p = Voice.treble ↔ 60 ≤ p) ∧
      (classify_voice p = Voice.bass ↔ p < 60) ∧
      split_voice p = classify_voice p) ∧
    classify_voice p1 = classify_voice p2 := by
  constructor
  · intro p
    unfold classify_voice split_voice MIDDLE_C
    split_ifs with h
    · exact ⟨⟨fun _ => h, fun _ => rfl⟩,
        ⟨fun hc => absurd hc (by decide), fun hc => absurd h (by omega)⟩, rfl⟩
    · exact ⟨⟨fun hc => absurd hc (by decide), fun hp2 => absurd hp2 h⟩,
        ⟨fun _ => by omega, fun _ => rfl⟩, rfl⟩
  · rw [hp]

/-- Witness for C4: applied at pitch 60 and pitch 60. -/
theorem C4_witness :
    (∀ p : ℤ, (classify_voice p = Voice.treble ↔ 60 ≤ p) ∧
      (classify_voice p = Voice.bass ↔ p < 60) ∧
      split_voice p = classify_voice p) ∧
    classify_voice 60 = classify_voice 60 :=
  C4_voice_classification 60 60 rfl

theorem transposeUpToMin_ge (ps minP : ℤ) : minP ≤ transposeUpToMin ps minP := by
  induction ps, minP using transposeUpToMin.induct with
  | case1 ps minP h ih =>
    rw [transposeUpToMin, if_pos h]
    exact ih
  | case2 ps minP h =>
    rw [transposeUpToMin, if_neg h]
    omega

theorem transposeUpToMin_dvd (ps minP : ℤ) :
    12 ∣ transposeUpToMin ps minP - ps := by
  induction ps, minP using transposeUpToMin.induct with
  | case1 ps minP h ih =>
    rw [transposeUpToMin, if_pos h]
    omega
  | case2 ps minP h =>
    rw [transposeUpToMin, if_neg h]
    omega

theorem transposeDownToMax_le (ps maxP : ℤ) : transposeDownToMax ps maxP ≤ maxP := by
  induction ps, maxP using transposeDownToMax.induct with
  | case1 ps maxP h ih =>
    rw [transposeDownToMax, if_pos h]
    exact ih
  | case2 ps maxP h =>
    rw [transposeDownToMax, if_neg h]
    omega

theorem transposeDownToMax_ge (ps maxP : ℤ) :
    min ps (maxP - 11) ≤ transposeDownToMax ps maxP := by
  induction ps, maxP using transposeDownToMax.induct with
  | case1 ps maxP h ih =>
    rw [transposeDownToMax, if_pos h]
    have : min (ps - 12) (maxP - 11) ≤ transposeDownToMax (ps - 12) maxP := ih
    omega
  | case2 ps maxP h =>
    rw [transposeDownToMax, if_neg h]
    omega

theorem transposeDownToMax_dvd (ps maxP : ℤ) :
    12 ∣ transposeDownToMax ps maxP - ps := by
  induction ps, maxP using transposeDownToMax.induct with
  | case1 ps maxP h ih =>
    rw [transposeDownToMax, if_pos h]
    omega
  | case2 ps maxP h =>
    rw [transposeDownToMax, if_neg h]
    omega

/-- C10: whenever the target range spans at least 11 semitones (an octave
fits), the range-fitting transposition terminates (it is a total function,
accepted by well-founded recursion) and returns a pitch inside
[min_pitch, max_pitch] that differs from the original pitch by a whole
number of octaves. -/
theorem C10_transpose_to_range (ps min_pitch max_pitch : ℤ)
    (hrange : min_pitch + 11 ≤ max_pitch) :
    min_pitch ≤ transpose_note_to_range ps min_pitch max_pitch ∧
    transpose_note_to_range ps min_pitch max_pitch ≤ max_pitch ∧
    12 ∣ transpose_note_to_range ps min_pitch max_pitch - ps := by
  unfold transpose_note_to_range
  have hup_ge := transposeUpToMin_ge ps min_pitch
  have hup_dvd := transposeUpToMin_dvd ps min_pitch
  have hdown_le := transposeDownToMax_le (transposeUpToMin ps min_pitch) max_pitch
  have hdown_ge := transposeDownToMax_ge (transposeUpToMin ps min_pitch) max_pitch
  have hdown_dvd := transposeDownToMax_dvd (transposeUpToMin ps min_pitch) max_pitch
  refine ⟨by omega, hdown_le, ?_⟩
  omega

/-- Witness for C10: MIDI pitch 30 fitted into the trumpet range 55..84
(which spans more than 11 semitones, as does the trombone range 40..77). -/
theorem C10_witness :
    (TRUMPET_MIN + 11 ≤ TRUMPET_MAX ∧ TROMBONE_MIN + 11 ≤ TROMBONE_MAX) ∧
    (TRUMPET_MIN ≤ transpose_note_to_range 30 TRUMPET_MIN TRUMPET_MAX ∧
     transpose_note_to_range 30 TRUMPET_MIN TRUMPET_MAX ≤ TRUMPET_MAX ∧
     12 ∣ transpose_note_to_range 30 TRUMPET_MIN TRUMPET_MAX - 30) :=
  ⟨by decide, C10_transpose_to_range 30 TRUMPET_MIN TRUMPET_MAX (by decide)⟩

theorem assignDurations_length (l : List TNote) :
    (assignDurations l).length = l.length := by
  induction l with
  | nil => rfl
  | cons e tl ih =>
    cases tl with
    | nil => rfl
    | cons e2 rest =>
      simp only [assignDurations, List.length_cons] at ih ⊢
      omega

theorem assignDurations_get (l : List TNote) (i : ℕ) (hi1 : i + 1 < l.length)
    (h1 : i < (assignDurations l).length) (h2 : i < l.length) :
    (assignDurations l).get ⟨i, h1⟩ =
      { l.get ⟨i, h2⟩ with
        quarterLength :=
          quantize_duration ((l.get ⟨i + 1, hi1⟩).onset - (l.get ⟨i, h2⟩).onset) } := by
  induction l generalizing i with
  | nil => simp at hi1
  | cons e tl ih =>
    cases tl with
    | nil => simp at hi1
    | cons e2 rest =>
      cases i with
      | zero => rfl
      | succ j =>
        have hj1 : j + 1 < (e2 :: rest).length := by
          simp only [List.length_cons] at hi1 ⊢
          omega
        have hja : j < (assignDurations (e2 :: rest)).length := by
          rw [assignDurations_length]
          simp only [List.length_cons] at hi1 ⊢
          omega
        have hj2 : j < (e2 :: rest).length := by
          simp only [List.length_cons] at hi1 ⊢
          omega
        have step := ih j hj1 hja hj2
        simpa only [assignDurations, List.get_cons_succ] using step

theorem assignDurations_getLast (l : List TNote) (hne : l ≠ []) :
    ∃ x : TNote, (assignDurations l).getLast? = some x ∧
      x.quarterLength = quantize_duration default_last_gap := by
  induction l with
  | nil => exact absurd rfl hne
  | cons e tl ih =>
    cases tl with
    | nil => exact ⟨_, rfl, rfl⟩
    | cons e2 rest =>
      obtain ⟨x, hx, hq⟩ := ih (by simp)
      refine ⟨x, ?_, hq⟩
      have hcons : ∃ y ys, assignDurations (e2 :: rest) = y :: ys := by
        cases rest with
        | nil => exact ⟨_, _, rfl⟩
        | cons e3 rest2 => exact ⟨_, _, rfl⟩
      obtain ⟨y, ys, hys⟩ := hcons
      rw [assignDurations, hys, List.getLast?_cons_cons, ← hys]
      exact hx

theorem estimate_eq_assign (notes : List TNote) (h2 : 2 ≤ notes.length)
    (hs : notes.Sorted (fun a b => a.onset ≤ b.onset)) :
    estimate_note_durations notes = assignDurations notes := by
  unfold estimate_note_durations
  rw [if_neg (by omega), List.Sorted.insertionSort_eq hs]

theorem quantize_duration_mem (d : ℚ) :
    quantize_duration d ∈ ([1/2, 1, 2, 4] : List ℚ) := by
  unfold quantize_duration
  split_ifs <;> simp

/-- C2: on an ascending-by-time list of at least two note events of one
voice, the duration estimator gives every non-final event the quarterLength
obtained by quantizing the time gap to the next event of that voice through
the fixed boundary thresholds, and that quarterLength is one of the four
canonical categories 0.5, 1, 2, 4 (half-beat, one-beat, two-beat and
four-beat at the assumed tempo).  The estimator is a pure function, so
repeated runs on the same input agree. -/
theorem C2_duration_estimator (notes : List TNote)
    (hs : notes.Sorted (fun a b => a.onset ≤ b.onset)) (h2 : 2 ≤ notes.length)
    (i : ℕ) (hi : i + 1 < notes.length) :
    ∃ h1 : i < (estimate_note_durations notes).length,
      ((estimate_note_durations notes).get ⟨i, h1⟩).quarterLength =
        quantize_duration ((notes.get ⟨i + 1, hi⟩).onset -
          (notes.get ⟨i, Nat.lt_of_succ_lt hi⟩).onset) ∧
      ((estimate_note_durations notes).get ⟨i, h1⟩).quarterLength ∈
        ([1/2, 1, 2, 4] : List ℚ) := by
  have heq := estimate_eq_assign notes h2 hs
  have hlen : (estimate_note_durations notes).length = notes.length := by
    rw [heq, assignDurations_length]
  have h1 : i < (estimate_note_durations notes).length := by omega
  have h1a : i < (assignDurations notes).length := by
    rw [assignDurations_length]; omega
  have hgot := assignDurations_get notes i hi h1a (Nat.lt_of_succ_lt hi)
  have hsame : (estimate_note_durations notes).get ⟨i, h1⟩ =
      (assignDurations notes).get ⟨i, h1a⟩ := by
    apply Option.some.inj
    calc some ((estimate_note_durations notes).get ⟨i, h1⟩)
        = (estimate_note_durations notes)[i]? := by
          rw [List.get_eq_getElem, List.getElem?_eq_getElem]
      _ = (assignDurations notes)[i]? := by rw [heq]
      _ = some ((assignDurations notes).get ⟨i, h1a⟩) := by
          rw [List.get_eq_getElem, List.getElem?_eq_getElem]
  refine ⟨h1, ?_, ?_⟩
  · rw [hsame, hgot]
  · rw [hsame, hgot]
    exact quantize_duration_mem _

/-- Witness for C2: two events half a second apart; the first receives the
quantized gap, the one-beat category. -/
theorem C2_witness :
    ∃ h1 : 0 < (estimate_note_durations [⟨0, 60, 1⟩, ⟨1/2, 62, 1⟩]).length,
      ((estimate_note_durations [⟨0, 60, 1⟩, ⟨1/2, 62, 1⟩]).get ⟨0, h1⟩).quarterLength =
        quantize_duration ((([⟨0, 60, 1⟩, ⟨1/2, 62, 1⟩] : List TNote).get
            ⟨1, by norm_num⟩).onset -
          (([⟨0, 60, 1⟩, ⟨1/2, 62, 1⟩] : List TNote).get ⟨0, by norm_num⟩).onset) ∧
      ((estimate_note_durations [⟨0, 60, 1⟩, ⟨1/2, 62, 1⟩]).get ⟨0, h1⟩).quarterLength ∈
        ([1/2, 1, 2, 4] : List ℚ) :=
  C2_duration_estimator [⟨0, 60, 1⟩, ⟨1/2, 62, 1⟩]
    (by norm_num [List.sorted_cons]) (by norm_num) 0 (by norm_num)

/-- C3: a voice of exactly one event is returned unchanged and, because every
note enters the estimator carrying the music21 constructor default
quarterLength 1.0, that single event ends with exactly the duration that the
last event of any multi-event voice receives (the quantized fixed default
gap, also 1.0); voices of zero or one events never produce an error (the
estimator is total). -/
theorem C3_single_event_default (e : TNote) (hql : e.quarterLength = 1)
    (notes : List TNote) (hlen : 2 ≤ notes.length) :
    estimate_note_durations [e] = [e] ∧
    e.quarterLength = quantize_duration default_last_gap ∧
    estimate_note_durations [] = [] ∧
    ∃ x : TNote, (estimate_note_durations notes).getLast? = some x ∧
      x.quarterLength = quantize_duration default_last_gap := by
  refine ⟨rfl, by rw [hql]; norm_num [quantize_duration, default_last_gap], rfl, ?_⟩
  unfold estimate_note_durations
  rw [if_neg (by omega)]
  apply assignDurations_getLast
  intro hcon
  have hlen2 := congrArg List.length hcon
  rw [List.length_insertionSort, List.length_nil] at hlen2
  omega

/-- Witness for C3: a single quarter-default event, and a two-event voice
whose last event gets the same quantized default. -/
theorem C3_witness :
    estimate_note_durations [⟨0, 60, 1⟩] = [⟨0, 60, 1⟩] ∧
    (⟨0, 60, 1⟩ : TNote).quarterLength = quantize_duration default_last_gap ∧
    estimate_note_durations [] = [] ∧
    ∃ x : TNote, (estimate_note_durations [⟨0, 60, 1⟩, ⟨1, 62, 1⟩]).getLast? = some x ∧
      x.quarterLength = quantize_duration default_last_gap :=
  C3_single_event_default ⟨0, 60, 1⟩ rfl [⟨0, 60, 1⟩, ⟨1, 62, 1⟩] (by decide)

theorem find_note_at_mem {notes : List TNote} {bt : ℚ} {n : TNote}
    (hf : find_note_at notes bt = some n) : n ∈ notes := by
  unfold find_note_at at hf
  exact List.mem_of_find?_eq_some hf

theorem structuredMeasure_le2_covers (notes : List TNote)
    (hql : ∀ n ∈ notes, 1 ≤ n.quarterLength) (mn : ℕ) (hmn : mn ≤ 2)
    (b : ℕ) (hb : b < 4) :
    measureCoversBeat (structuredMeasure notes mn) (b : ℚ) := by
  unfold structuredMeasure
  rw [if_pos hmn]
  rcases hf : find_note_at notes (((mn - 1) * 4 + b : ℕ) : ℚ) with _ | n
  · refine ⟨((b : ℚ), MElem.rest 1), ?_, le_refl _, ?_⟩
    · exact List.mem_map.mpr ⟨b, List.mem_range.mpr hb, by simp only [hf]⟩
    · norm_num [MElem.ql]
  · have h1 : 1 ≤ n.quarterLength := hql n (find_note_at_mem hf)
    refine ⟨((b : ℚ), MElem.note n.quarterLength), ?_, le_refl _, ?_⟩
    · exact List.mem_map.mpr ⟨b, List.mem_range.mpr hb, by simp only [hf]⟩
    · simp only [MElem.ql]
      linarith

theorem structuredMeasure3_covers (notes : List TNote)
    (hql : ∀ n ∈ notes, 1 ≤ n.quarterLength) (b : ℚ)
    (hb : b ∈ ([0, 1, 2, 3] : List ℚ)) :
    measureCoversBeat (structuredMeasure notes 3) b := by
  unfold structuredMeasure
  rw [if_neg (by norm_num)]
  fin_cases hb
  · rcases hf : find_note_at notes 8 with _ | n
    · exact ⟨(0, MElem.rest 1), by simp [hf], by norm_num, by norm_num [MElem.ql]⟩
    · have h1 : 1 ≤ n.quarterLength := hql n (find_note_at_mem hf)
      refine ⟨(0, MElem.note n.quarterLength), by simp [hf], by norm_num, ?_⟩
      simp only [MElem.ql]
      linarith
  · exact ⟨(1, MElem.rest 1), by simp, by norm_num, by norm_num [MElem.ql]⟩
  · exact ⟨(2, MElem.rest 2), by simp, by norm_num, by norm_num [MElem.ql]⟩
  · exact ⟨(2, MElem.rest 2), by simp, by norm_num, by norm_num [MElem.ql]⟩

/-- The claim of C8 fails on AudioTranscriber._create_dynamic_part: a single
detected note at onset 0 (carrying the default quarterLength 1) with no given
audio duration produces one measure holding only that note, so beat slots 1,
2 and 3 of the measure hold neither a note event nor an explicit rest. -/
theorem C8_counterexample :
    ¬ allBeatsCovered (create_dynamic_part [⟨0, 60, 1⟩] none) := by
  have hev : create_dynamic_part [⟨0, 60, 1⟩] none = [[(0, MElem.note 1)]] := by
    simp only [create_dynamic_part, maxOnset, pyTrunc, pyMod, List.isEmpty_cons,
      Bool.false_eq_true, if_false, Option.getD_none, List.foldl_nil, List.foldl_cons]
    norm_num
    have hc : ⌈(1:ℚ)/2⌉ = 1 := by
      rw [Int.ceil_eq_iff]
      norm_num
    rw [hc]
    rfl
  rw [hev]
  intro h
  obtain ⟨p, hp, h1, h2⟩ := h [((0:ℚ), MElem.note 1)] (by simp) 1 (by norm_num)
  simp only [List.mem_singleton] at hp
  subst hp
  norm_num [MElem.ql] at h2

/-- C8 amended: the fixed-structure score assembler
(_create_structured_part) produces, for every input whose notes carry a
quarterLength of at least one beat (as the notes handed to it do), three
measures in which every beat slot holds either a note event or an explicit
rest; the dynamic assembler (_create_dynamic_part) guarantees this only for
the empty input, where it emits a single whole-measure rest — for nonempty
input it inserts only the detected notes and leaves beats without an onset
unfilled (see the counterexample). -/
theorem C8_every_beat_accounted (notes : List TNote) (d : Option ℚ)
    (hql : ∀ n ∈ notes, 1 ≤ n.quarterLength) :
    allBeatsCovered (create_structured_part notes) ∧
    allBeatsCovered (create_dynamic_part [] d) := by
  constructor
  · intro m hm b hb
    have hbk : ∃ k : ℕ, k < 4 ∧ b = (k : ℚ) := by
      fin_cases hb
      exacts [⟨0, by norm_num, by norm_num⟩, ⟨1, by norm_num, by norm_num⟩,
        ⟨2, by norm_num, by norm_num⟩, ⟨3, by norm_num, by norm_num⟩]
    simp only [create_structured_part, List.mem_cons, List.not_mem_nil,
      or_false] at hm
    rcases hm with rfl | rfl | rfl
    · obtain ⟨k, hk4, rfl⟩ := hbk
      exact structuredMeasure_le2_covers notes hql 1 (by norm_num) k hk4
    · obtain ⟨k, hk4, rfl⟩ := hbk
      exact structuredMeasure_le2_covers notes hql 2 (by norm_num) k hk4
    · exact structuredMeasure3_covers notes hql b hb
  · intro m hm b hb
    simp only [create_dynamic_part, List.isEmpty_nil, if_true,
      List.mem_singleton] at hm
    subst hm
    fin_cases hb
    · exact ⟨(0, MElem.rest 4), by simp, by norm_num, by norm_num [MElem.ql]⟩
    · exact ⟨(0, MElem.rest 4), by simp, by norm_num, by norm_num [MElem.ql]⟩
    · exact ⟨(0, MElem.rest 4), by simp, by norm_num, by norm_num [MElem.ql]⟩
    · exact ⟨(0, MElem.rest 4), by simp, by norm_num, by norm_num [MElem.ql]⟩

/-- Witness for C8 amended: the empty note list. -/
theorem C8_witness :
    allBeatsCovered (create_structured_part []) ∧
    allBeatsCovered (create_dynamic_part [] none) :=
  C8_every_beat_accounted [] none (by simp)

theorem hz_to_midi_strictMonoOn {f1 f2 : ℝ} (h0 : 0 < f1) (h : f1 < f2) :
    hz_to_midi f1 < hz_to_midi f2 := by
  unfold hz_to_midi
  have h1 : (0:ℝ) < f1 / 440 := by positivity
  have h2 : f1 / 440 < f2 / 440 := by
    exact (div_lt_div_iff_of_pos_right (by norm_num)).mpr h
  have h3 := Real.logb_lt_logb (b := 2) (by norm_num) h1 h2
  linarith

theorem hz_to_midi_440 : hz_to_midi 440 = 69 := by
  unfold hz_to_midi
  rw [div_self (by norm_num : (440:ℝ) ≠ 0), Real.logb_one]
  ring

theorem hz_to_midi_880 : hz_to_midi 880 = 81 := by
  unfold hz_to_midi
  rw [show (880:ℝ) / 440 = 2 by norm_num, Real.logb_self_eq_one (by norm_num)]
  ring

theorem pyRound_eq_69 : pyRound (hz_to_midi 440) = 69 := by
  rw [hz_to_midi_440, show (69:ℝ) = ((69:ℤ) : ℝ) by norm_num, pyRound_intCast]

theorem pyRound_eq_81 : pyRound (hz_to_midi 880) = 81 := by
  rw [hz_to_midi_880, show (81:ℝ) = ((81:ℤ) : ℝ) by norm_num, pyRound_intCast]

theorem frequency_to_note_440 : frequency_to_note 440 = some 69 := by
  unfold frequency_to_note
  rw [if_neg (by push_neg; norm_num)]
  show (if pyRound (hz_to_midi 440) < 21 ∨ 108 < pyRound (hz_to_midi 440)
        then none else some (pyRound (hz_to_midi 440))) = some 69
  rw [pyRound_eq_69, if_neg (by norm_num)]

theorem frequency_to_note_880 : frequency_to_note 880 = some 81 := by
  unfold frequency_to_note
  rw [if_neg (by push_neg; norm_num)]
  show (if pyRound (hz_to_midi 880) < 21 ∨ 108 < pyRound (hz_to_midi 880)
        then none else some (pyRound (hz_to_midi 880))) = some 81
  rw [pyRound_eq_81, if_neg (by norm_num)]

theorem logb_two_twenty_gt : (49:ℝ)/12 < Real.logb 2 20 := by
  rw [Real.lt_logb_iff_rpow_lt (by norm_num) (by norm_num)]
  by_contra hcon
  push_neg at hcon
  have h12 : ((20:ℝ)) ^ (12:ℕ) ≤ ((2:ℝ) ^ ((49:ℝ)/12)) ^ (12:ℕ) :=
    pow_le_pow_left₀ (by norm_num) hcon 12
  have heq : ((2:ℝ) ^ ((49:ℝ)/12)) ^ (12:ℕ) = (2:ℝ) ^ (49:ℕ) := by
    rw [← Real.rpow_natCast ((2:ℝ) ^ ((49:ℝ)/12)) 12, ← Real.rpow_mul (by norm_num),
      show ((49:ℝ)/12) * ((12:ℕ):ℝ) = ((49:ℕ):ℝ) by norm_num, Real.rpow_natCast]
  rw [heq] at h12
  norm_num at h12

theorem hz_to_midi_22_lt : hz_to_midi 22 < 20 := by
  unfold hz_to_midi
  rw [show (22:ℝ)/440 = (20:ℝ)⁻¹ by norm_num, Real.logb_inv]
  have h := logb_two_twenty_gt
  linarith

theorem pyRound_hz22_lt : pyRound (hz_to_midi 22) < 21 := by
  have h1 : pyRound (hz_to_midi 22) ≤ ⌊hz_to_midi 22⌋ + 1 := pyRound_le _
  have h2 : ⌊hz_to_midi 22⌋ < 20 := by
    rw [Int.floor_lt]
    exact_mod_cast hz_to_midi_22_lt
  omega

/-- C5: the pitch mapper returns no pitch for every frequency at or below the
low cutoff of 20 Hz or above the high cutoff of 4000 Hz (the mapper takes
only the frequency, so this holds for any peak magnitude), and likewise for
every in-cutoff frequency whose rounded semitone falls outside the piano
compass MIDI 21..108. -/
theorem C5_pitch_mapper_rejects (f : ℝ) :
    (f ≤ 20 ∨ 4000 < f → frequency_to_note f = none) ∧
    (20 < f → f ≤ 4000 →
      (pyRound (hz_to_midi f) < 21 ∨ 108 < pyRound (hz_to_midi f)) →
      frequency_to_note f = none) := by
  constructor
  · intro h
    unfold frequency_to_note
    rw [if_pos h]
  · intro hlo hhi hout
    unfold frequency_to_note
    rw [if_neg (by push_neg; exact ⟨by linarith, by linarith⟩)]
    show (if pyRound (hz_to_midi f) < 21 ∨ 108 < pyRound (hz_to_midi f)
          then none else some (pyRound (hz_to_midi f))) = none
    rw [if_pos hout]

/-- Witness for C5: 10 Hz is below the low cutoff; 22 Hz is inside the
cutoffs but rounds to a semitone below 21, so both map to no pitch. -/
theorem C5_witness :
    frequency_to_note 10 = none ∧ frequency_to_note 22 = none :=
  ⟨(C5_pitch_mapper_rejects 10).1 (Or.inl (by norm_num)),
   (C5_pitch_mapper_rejects 22).2 (by norm_num) (by norm_num)
     (Or.inl pyRound_hz22_lt)⟩

/-- C6: the pitch mapper is monotonic; for two frequencies inside the
acceptance range that both map to a pitch, the lower frequency maps to a
semitone less than or equal to that of the higher frequency. -/
theorem C6_pitch_mapper_monotonic (f1 f2 : ℝ) (hlt : f1 < f2)
    (hlo : 20 < f1) (hhi : f2 ≤ 4000) (p1 p2 : ℤ)
    (h1 : frequency_to_note f1 = some p1)
    (h2 : frequency_to_note f2 = some p2) : p1 ≤ p2 := by
  have e1 : p1 = pyRound (hz_to_midi f1) := by
    unfold frequency_to_note at h1
    rw [if_neg (by push_neg; exact ⟨by linarith, by linarith⟩)] at h1
    have h1b : (if pyRound (hz_to_midi f1) < 21 ∨ 108 < pyRound (hz_to_midi f1)
        then none else some (pyRound (hz_to_midi f1))) = some p1 := h1
    rcases ite_eq_iff.mp h1b with ⟨_, hnone⟩ | ⟨_, hsome⟩
    · exact absurd hnone (by simp)
    · exact (Option.some.inj hsome).symm
  have e2 : p2 = pyRound (hz_to_midi f2) := by
    unfold frequency_to_note at h2
    rw [if_neg (by push_neg; exact ⟨by linarith, by linarith⟩)] at h2
    have h2b : (if pyRound (hz_to_midi f2) < 21 ∨ 108 < pyRound (hz_to_midi f2)
        then none else some (pyRound (hz_to_midi f2))) = some p2 := h2
    rcases ite_eq_iff.mp h2b with ⟨_, hnone⟩ | ⟨_, hsome⟩
    · exact absurd hnone (by simp)
    · exact (Option.some.inj hsome).symm
  rw [e1, e2]
  exact pyRound_mono (hz_to_midi_strictMonoOn (by linarith) hlt).le

/-- Witness for C6: 440 Hz maps to semitone 69 and 880 Hz to 81, so the
mapped pitches are ordered. -/
theorem C6_witness :
    frequency_to_note 440 = some 69 ∧ frequency_to_note 880 = some 81 ∧
    (69:ℤ) ≤ 81 :=
  ⟨frequency_to_note_440, frequency_to_note_880,
   C6_pitch_mapper_monotonic 440 880 (by norm_num) (by norm_num) (by norm_num)
     69 81 frequency_to_note_440 frequency_to_note_880⟩

/-- C7: pitch quantization round-trips at the reference tuning pitch; the
hz-to-midi formula sends 440 Hz exactly to 69 and the pitch mapper returns
exactly the canonical semitone 69 (A4). -/
theorem C7_reference_pitch_roundtrip :
    hz_to_midi 440 = 69 ∧ frequency_to_note 440 = some 69 :=
  ⟨hz_to_midi_440, frequency_to_note_440⟩

/-- C9: onset detection is deterministic; two runs of the detector on equal
audio buffers with the same fixed configuration produce identical onset
timestamp sequences.  In this embedding the detector is a pure function of
the buffer and the configuration constants, so the result depends on nothing
else. -/
theorem C9_onset_determinism (a1 a2 : List ℚ) (sr : ℕ) (h : a1 = a2) :
    detect_onsets a1 sr = detect_onsets a2 sr := by
  rw [h]

/-- Witness for C9: two runs on the same concrete buffer agree. -/
theorem C9_witness :
    detect_onsets [1, 0, 1, 0] 22050 = detect_onsets [1, 0, 1, 0] 22050 :=
  C9_onset_determinism [1, 0, 1, 0] [1, 0, 1, 0] 22050 rfl
